import Mathlib

/-!
# Verification of the gematria-trainer core

Shallow embedding of the spaced-repetition core of the gematria-trainer
repository: the SM-2 scheduler (tests/test_spaced_repetition.py and
tests/test_card_state.py), mastery evaluation and card selection
(tests/test_card_selection.py), the tier progression machine
(tests/test_progression.py), the valuation/cipher systems and the Hebrew
numeral encoder (tests/test_gematria_systems.py, tests/test_levels.py).
Real-number arithmetic of the source is modelled with exact rationals.
-/

namespace Gematria

/-! ## SM-2 constants and ease-factor adjustment -/

/-- `DEFAULT_EASE = 2.5` from the source. -/
def DEFAULT_EASE : ℚ := 5/2

/-- `MIN_EASE = 1.3` from the source. -/
def MIN_EASE : ℚ := 13/10

/-- `adjust_ease(ef, quality)` from tests/test_spaced_repetition.py:
`delta = 0.1 - (5 - quality) * (0.08 + (5 - quality) * 0.02)`;
`return max(MIN_EASE, ef + delta)`.  Quality is a natural number in
{1,3,4,5}, so the Python subtraction `5 - quality` is non-negative and
agrees with truncated subtraction on ℕ. -/
def adjust_ease (ef : ℚ) (quality : ℕ) : ℚ :=
  let delta : ℚ := 1/10 - ((5 - quality : ℕ) : ℚ) * (2/25 + ((5 - quality : ℕ) : ℚ) * (1/50))
  max MIN_EASE (ef + delta)

/-- Python's `round` (round half to even), acting on the exact rational
value of the product it is applied to. -/
def pyRound (q : ℚ) : ℤ :=
  let f : ℤ := ⌊q⌋
  let frac : ℚ := q - f
  if frac < 1/2 then f
  else if 1/2 < frac then f + 1
  else if Even f then f else f + 1

/-- `sm2_review(reps, interval, ef, quality)` from
tests/test_spaced_repetition.py.  Returns `(new_reps, new_interval, new_ef)`.
Interval ladder: first success step 1, second step 6, then
`round(interval * new_ef)`. -/
def sm2_review (reps : ℕ) (interval : ℤ) (ef : ℚ) (quality : ℕ) : ℕ × ℤ × ℚ :=
  let new_ef := adjust_ease ef quality
  if quality < 3 then (0, 1, new_ef)
  else
    let new_interval : ℤ :=
      if reps = 0 then 1
      else if reps = 1 then 6
      else pyRound ((interval : ℚ) * new_ef)
    (reps + 1, new_interval, new_ef)

/-! ## Card records (tests/test_card_state.py, tests/test_card_selection.py)

The Python card dict has fields card_id, ease_factor, interval_minutes,
repetitions, next_review, last_quality, review_count, correct_count.
`next_review` is an ISO timestamp in the source; it is modelled as a
rational time coordinate in minutes, so that
`overdue = (now - due).total_seconds() / 60` becomes `now - next_review`. -/

structure Card where
  card_id : String
  ease_factor : ℚ
  interval_minutes : ℤ
  repetitions : ℕ
  next_review : ℚ
  last_quality : Option ℕ
  review_count : ℕ
  correct_count : ℕ
deriving DecidableEq, Repr

/-- `_create_card(card_id)` from tests/test_card_state.py (the fixed
timestamp of the source is time coordinate 0). -/
def create_card (card_id : String) : Card :=
  { card_id := card_id
    ease_factor := DEFAULT_EASE
    interval_minutes := 1
    repetitions := 0
    next_review := 0
    last_quality := none
    review_count := 0
    correct_count := 0 }

/-- `_sm2_review(card, quality)` from tests/test_card_state.py (matches
card-state.js reviewCard).  Interval ladder: first success step 2, second
step 10, then `round(interval_minutes * new_ef)`. -/
def sm2_review_card (card : Card) (quality : ℕ) : Card :=
  let new_ef := adjust_ease card.ease_factor quality
  let new_reps : ℕ := if quality < 3 then 0 else card.repetitions + 1
  let new_interval : ℤ :=
    if quality < 3 then 1
    else if card.repetitions = 0 then 2
    else if card.repetitions = 1 then 10
    else pyRound ((card.interval_minutes : ℚ) * new_ef)
  { card_id := card.card_id
    ease_factor := new_ef
    interval_minutes := new_interval
    repetitions := new_reps
    next_review := card.next_review
    last_quality := some quality
    review_count := card.review_count + 1
    correct_count := card.correct_count + (if 3 ≤ quality then 1 else 0) }

/-! ## Mastery evaluation -/

/-- `_level_accuracy(cards)` from tests/test_card_state.py:
total correct over total reviews, 0 when there are no reviews. -/
def level_accuracy (cards : List Card) : ℚ :=
  let total_reviews : ℕ := (cards.map (·.review_count)).sum
  let total_correct : ℕ := (cards.map (·.correct_count)).sum
  if 0 < total_reviews then (total_correct : ℚ) / (total_reviews : ℚ) else 0

/-- `MASTERY_MIN_REPS = 3` from tests/test_progression.py. -/
def MASTERY_MIN_REPS : ℕ := 3

/-- `MASTERY_ACCURACY = 0.8` from tests/test_progression.py. -/
def MASTERY_ACCURACY : ℚ := 4/5

/-- `_check_mastery(cards)` from tests/test_card_state.py: false on empty,
false if any card has fewer than 3 reviews, else accuracy ≥ 0.8. -/
def check_mastery (cards : List Card) : Bool :=
  if cards.isEmpty then false
  else if cards.any (fun c => c.review_count < MASTERY_MIN_REPS) then false
  else decide (MASTERY_ACCURACY ≤ level_accuracy cards)

/-- `_check_mastery(cards)` from tests/test_card_selection.py and
tests/test_progression.py: same as `check_mastery` but with an explicit
`total_reviews > 0 and ...` guard. -/
def check_mastery_sel (cards : List Card) : Bool :=
  if cards.isEmpty then false
  else if cards.any (fun c => c.review_count < MASTERY_MIN_REPS) then false
  else
    let total_reviews : ℕ := (cards.map (·.review_count)).sum
    let total_correct : ℕ := (cards.map (·.correct_count)).sum
    decide (0 < total_reviews) &&
      decide (MASTERY_ACCURACY ≤ (total_correct : ℚ) / (total_reviews : ℚ))

/-! ## Card selection (tests/test_card_selection.py) -/

/-- A CardSpec record (`_make_spec` shape): id, type, prompt, answer.
`type` is stored in field `ctype` since the source key is the string
literal "type". -/
structure CardSpec where
  id : String
  ctype : String
  prompt : String
  answer : String
deriving DecidableEq, Repr

/-- Python dict built from a list of key/value pairs in order (later
duplicates overwrite earlier ones), then `.get(key)`. -/
def dictGet {α : Type} (pairs : List (String × α)) (key : String) : Option α :=
  ((pairs.reverse).find? (fun p => p.1 = key)).map (·.2)

/-- `_overdue_minutes(card)`: minutes since the card came due. -/
def overdue_minutes (now : ℚ) (card : Card) : ℚ :=
  now - card.next_review

/-- Loop of `_find_most_overdue`: `best` starts as None and `best_overdue`
as 0; a card replaces the best iff its overdue is positive and either no
best exists yet or it strictly exceeds the best overdue so far. -/
def fmoAux (now : ℚ) : List Card → Option Card → ℚ → Option Card
  | [], best, _ => best
  | c :: rest, best, bo =>
    let od := overdue_minutes now c
    if 0 < od ∧ (best.isNone ∨ bo < od) then fmoAux now rest (some c) od
    else fmoAux now rest best bo

/-- `_find_most_overdue(cards)` from tests/test_card_selection.py. -/
def find_most_overdue (now : ℚ) (cards : List Card) : Option Card :=
  fmoAux now cards none 0

/-- `_find_new_card(cards, specs)`: build `card_map` keyed by card_id,
then scan specs in order for the first whose card exists with
review_count 0. -/
def find_new_card (cards : List Card) : List CardSpec → Option (Card × CardSpec)
  | [] => none
  | spec :: rest =>
    match dictGet (cards.map (fun c => (c.card_id, c))) spec.id with
    | some card =>
      if card.review_count = 0 then some (card, spec)
      else find_new_card cards rest
    | none => find_new_card cards rest

/-- Loop of `_find_soonest_due`: `best_overdue` starts at -inf, so the
first card is always taken; afterwards only a strictly larger overdue
replaces the best. -/
def fsdAux (now : ℚ) : List Card → Option Card → ℚ → Option Card
  | [], best, _ => best
  | c :: rest, best, bo =>
    let od := overdue_minutes now c
    if best.isNone ∨ bo < od then fsdAux now rest (some c) od
    else fsdAux now rest best bo

/-- `_find_soonest_due(cards)` from tests/test_card_selection.py. -/
def find_soonest_due (now : ℚ) (cards : List Card) : Option Card :=
  match cards with
  | [] => none
  | c :: rest => fsdAux now rest (some c) (overdue_minutes now c)

/-- Result of `select_next`: the `type` string together with the optional
card and spec. -/
structure SelectResult where
  rtype : String
  card : Option Card
  spec : Option CardSpec
deriving DecidableEq, Repr

/-- `select_next(cards, specs)` from tests/test_card_selection.py:
most-overdue card first, then first new card in spec order, then the
advance signal on mastery, then the soonest-due card, else review. -/
def select_next (now : ℚ) (cards : List Card) (specs : List CardSpec) : SelectResult :=
  match find_most_overdue now cards with
  | some overdue =>
    { rtype := "card", card := some overdue
      spec := dictGet (specs.map (fun s => (s.id, s))) overdue.card_id }
  | none =>
    match find_new_card cards specs with
    | some (card, spec) => { rtype := "card", card := some card, spec := some spec }
    | none =>
      if check_mastery_sel cards then
        { rtype := "advance", card := none, spec := none }
      else
        match find_soonest_due now cards with
        | some soonest =>
          { rtype := "card", card := some soonest
            spec := dictGet (specs.map (fun s => (s.id, s))) soonest.card_id }
        | none => { rtype := "review", card := none, spec := none }

/-! ## Tier progression (tests/test_progression.py) -/

/-- `TIER_COUNTS.get(system_key, 0)` from tests/test_progression.py. -/
def tier_counts (system_key : String) : ℕ :=
  if system_key = "hechrachi" then 8
  else if system_key = "gadol" then 8
  else if system_key = "katan" then 4
  else if system_key = "siduri" then 4
  else if system_key = "atbash" then 3
  else if system_key = "albam" then 3
  else if system_key = "avgad" then 3
  else 0

/-- ProgressionState: system id, current tier, tier count, completed flag
and the per-tier card map (as an association list, as built by the
source's dict). -/
structure ProgState where
  system : String
  currentTier : ℕ
  tierCount : ℕ
  completed : Bool
  tiers : List (String × List Card)
deriving DecidableEq, Repr

/-- `_create_state(system_key)` from tests/test_progression.py. -/
def create_state (system_key : String) : ProgState :=
  { system := system_key
    currentTier := 1
    tierCount := tier_counts system_key
    completed := false
    tiers := [] }

/-- `_try_advance(state, cards)` from tests/test_progression.py, embedded
functionally: returns the new state together with the `(advanced,
completed)` flags of the source. -/
def try_advance (state : ProgState) (cards : List Card) : ProgState × Bool × Bool :=
  if ¬ check_mastery_sel cards then (state, false, false)
  else if state.tierCount ≤ state.currentTier then
    ({ state with completed := true }, false, true)
  else
    ({ state with currentTier := state.currentTier + 1 }, true, false)

/-- States reachable from a given initial state by any sequence of
`try_advance` steps (with arbitrary card collections). -/
inductive ReachableFrom (init : ProgState) : ProgState → Prop
  | refl : ReachableFrom init init
  | step {s : ProgState} (cards : List Card) :
      ReachableFrom init s → ReachableFrom init (try_advance s cards).1

/-- `n` successive quality-1 (wrong) reviews of the ease factor, as in
`test_ef_minimum_after_many_wrongs` of tests/test_spaced_repetition.py. -/
def iter_wrong : ℕ → ℚ → ℚ
  | 0, e => e
  | n + 1, e => iter_wrong n (adjust_ease e 1)

/-- A card dict carrying the given scheduler state, used to compare the
two review embeddings on the same input. -/
def mkCard (reps : ℕ) (interval : ℤ) (ef : ℚ) : Card :=
  { card_id := "c"
    ease_factor := ef
    interval_minutes := interval
    repetitions := reps
    next_review := 0
    last_quality := none
    review_count := 0
    correct_count := 0 }

/-! ## Cipher systems (tests/test_gematria_systems.py)

The alphabet in position order is the reverse of the `LETTERS` constant
`"תשרקצפעסנמלכיטחזוהדגבא"` of tests/test_gematria_systems.py.  The cipher
maps are built exactly as in the tests: from a letter's 1-based position
`pos = i + 1` to the letter at the computed target position. -/

def alphabet : List Char := "אבגדהוזחטיכלמנסעפצקרשת".toList

/-- Atbash map of TestAtbash.atbash_map: position `p ↦ 23 - p`, i.e.
0-based index `i ↦ 21 - i`. -/
def atbash_char (c : Char) : Option Char :=
  match alphabet.findIdx? (· = c) with
  | some i => alphabet[21 - i]?
  | none => none

/-- Albam map of TestAlbam.albam_map: position `p ↦ p + 11` if `p ≤ 11`
else `p - 11`, i.e. 0-based index `i ↦ i + 11` if `i ≤ 10` else `i - 11`. -/
def albam_char (c : Char) : Option Char :=
  match alphabet.findIdx? (· = c) with
  | some i => alphabet[if i ≤ 10 then i + 11 else i - 11]?
  | none => none

/-- Avgad forward of TestAvgad: `alphabet[(i + 1) % 22]`. -/
def avgad_forward (c : Char) : Option Char :=
  match alphabet.findIdx? (· = c) with
  | some i => alphabet[(i + 1) % 22]?
  | none => none

/-- Avgad reverse of TestAvgad.test_forward_reverse_inverse: Python index
`(j - 1) % 22`, which for `0 ≤ j < 22` equals `(j + 21) % 22` on ℕ. -/
def avgad_reverse (c : Char) : Option Char :=
  match alphabet.findIdx? (· = c) with
  | some j => alphabet[(j + 21) % 22]?
  | none => none

/-! ## Hebrew numeral encoding (TestNumberEncoding of
tests/test_gematria_systems.py) -/

/-- The `VALUES`/`LETTERS` tables of TestNumberEncoding, paired index by
index. -/
def HE_VALUES : List (ℕ × Char) :=
  [(400, 'ת'), (300, 'ש'), (200, 'ר'), (100, 'ק'), (90, 'צ'), (80, 'פ'),
   (70, 'ע'), (60, 'ס'), (50, 'נ'), (40, 'מ'), (30, 'ל'), (20, 'כ'),
   (10, 'י'), (9, 'ט'), (8, 'ח'), (7, 'ז'), (6, 'ו'), (5, 'ה'), (4, 'ד'),
   (3, 'ג'), (2, 'ב'), (1, 'א')]

def GERESH : Char := '׳'

def GERSHAYIM : Char := '״'

/-- Inner `while remaining >= val` loop of `TestNumberEncoding._encode`:
append the letter once per full multiple and subtract.  The `1 ≤ v` guard
is only for termination; every value in `HE_VALUES` is ≥ 1. -/
def emit_loop (v : ℕ) (c : Char) (remaining : ℕ) : List Char × ℕ :=
  if h : 1 ≤ v ∧ v ≤ remaining then
    let p := emit_loop v c (remaining - v)
    (c :: p.1, p.2)
  else ([], remaining)
termination_by remaining
decreasing_by omega

/-- The greedy decomposition loop of `_encode` over the value table. -/
def greedy_encode : List (ℕ × Char) → ℕ → List Char
  | [], _ => []
  | (v, c) :: rest, n =>
    let p := emit_loop v c n
    p.1 ++ greedy_encode rest p.2

/-- Python `str.replace` for a two-character pattern: scan left to right,
replacing non-overlapping occurrences and continuing after each
replacement. -/
def replace2 (a b ra rb : Char) : List Char → List Char
  | [] => []
  | [x] => [x]
  | x :: y :: rest =>
    if x = a ∧ y = b then ra :: rb :: replace2 a b ra rb rest
    else x :: replace2 a b ra rb (y :: rest)

/-- Punctuation step of `_encode`: a geresh after a single letter,
otherwise a gershayim immediately before the last letter.  Only reached
with a nonempty string (the source indexes `s[-1]`). -/
def punctuate (s : List Char) : List Char :=
  if s.length = 1 then s ++ [GERESH]
  else s.dropLast ++ GERSHAYIM :: s.getLast?.toList

/-- `TestNumberEncoding._encode(n, omit_thousands)`: thousands reduction
(once), empty string at zero, greedy decomposition, the 15/16
replacements in order, then punctuation. -/
def encode (n : ℕ) (omit_thousands : Bool) : String :=
  let m := if omit_thousands = true ∧ 1000 ≤ n then n % 1000 else n
  if m = 0 then ""
  else
    let s := greedy_encode HE_VALUES m
    let s := replace2 'י' 'ה' 'ט' 'ו' s
    let s := replace2 'י' 'ו' 'ט' 'ז' s
    String.mk (punctuate s)

/-- Greedy decomposition as the spec words it: for each value of the
descending table, append its letter once per full multiple remaining. -/
def greedy_spec : List (ℕ × Char) → ℕ → List Char
  | [], _ => []
  | (v, c) :: rest, n => List.replicate (n / v) c ++ greedy_spec rest (n % v)

/-- The claim's five-step description of the encoder, with the greedy
step written as full-multiple replication; compared with `encode`. -/
def encode_spec (n : ℕ) (omit_thousands : Bool) : String :=
  let m := if omit_thousands = true ∧ 1000 ≤ n then n % 1000 else n
  if m = 0 then ""
  else
    let s := greedy_spec HE_VALUES m
    let s := replace2 'י' 'ה' 'ט' 'ו' s
    let s := replace2 'י' 'ו' 'ט' 'ז' s
    String.mk (punctuate s)

/-! ## Letter valuation (tests/test_levels.py `_compute_value`) -/

/-- One row of letters.csv: glyph, name, 1-based position, standard
value, optional final form and final value (absent entries are the empty
string in the CSV, modelled as `""` / `none`). -/
structure LetterRow where
  letter : String
  name : String
  position : ℕ
  standard_value : ℕ
  final_form : String
  final_value : Option ℕ
deriving DecidableEq, Repr

/-- Modelled from the spec: src/data/letters.csv is external data not
under src/.  The 22 rows follow §3 of the spec (positions 1..22,
standard values 1..400, the five final forms with values 500..900),
with the glyph order fixed by the `LETTERS` constant and the expected
value lists of tests/test_gematria_systems.py. -/
def letters_table : List LetterRow :=
  [⟨"א", "alef", 1, 1, "", none⟩,
   ⟨"ב", "bet", 2, 2, "", none⟩,
   ⟨"ג", "gimel", 3, 3, "", none⟩,
   ⟨"ד", "dalet", 4, 4, "", none⟩,
   ⟨"ה", "he", 5, 5, "", none⟩,
   ⟨"ו", "vav", 6, 6, "", none⟩,
   ⟨"ז", "zayin", 7, 7, "", none⟩,
   ⟨"ח", "het", 8, 8, "", none⟩,
   ⟨"ט", "tet", 9, 9, "", none⟩,
   ⟨"י", "yod", 10, 10, "", none⟩,
   ⟨"כ", "kaf", 11, 20, "ך", some 500⟩,
   ⟨"ל", "lamed", 12, 30, "", none⟩,
   ⟨"מ", "mem", 13, 40, "ם", some 600⟩,
   ⟨"נ", "nun", 14, 50, "ן", some 700⟩,
   ⟨"ס", "samekh", 15, 60, "", none⟩,
   ⟨"ע", "ayin", 16, 70, "", none⟩,
   ⟨"פ", "pe", 17, 80, "ף", some 800⟩,
   ⟨"צ", "tsadi", 18, 90, "ץ", some 900⟩,
   ⟨"ק", "qof", 19, 100, "", none⟩,
   ⟨"ר", "resh", 20, 200, "", none⟩,
   ⟨"ש", "shin", 21, 300, "", none⟩,
   ⟨"ת", "tav", 22, 400, "", none⟩]

/-- The row-search loop of `_compute_value`: the first row whose base
letter matches (not a final), else whose final form matches (a final). -/
def find_letter_row : List LetterRow → String → Option (LetterRow × Bool)
  | [], _ => none
  | row :: rest, ch =>
    if row.letter = ch then some (row, false)
    else if row.final_form = ch then some (row, true)
    else find_letter_row rest ch

/-- Katan digit reduction of `_compute_value`: divide out trailing
multiples of ten while `val >= 10 and val % 10 == 0`. -/
def reduce_tens (val : ℕ) : ℕ :=
  if h : 10 ≤ val ∧ val % 10 = 0 then reduce_tens (val / 10)
  else val
termination_by val
decreasing_by exact Nat.div_lt_self (by omega) (by omega)

/-- `_compute_value(ch, system)` from tests/test_levels.py, with the
letter table passed explicitly.  Unknown letters and unknown systems
yield 0, exactly as in the source. -/
def compute_value (data : List LetterRow) (ch : String) (system : String) : ℕ :=
  match find_letter_row data ch with
  | none => 0
  | some (row, is_final) =>
    if system = "hechrachi" then row.standard_value
    else if system = "gadol" then
      if is_final then row.final_value.getD row.standard_value
      else row.standard_value
    else if system = "katan" then reduce_tens row.standard_value
    else if system = "siduri" then row.position
    else 0

/-- A reviewed card due at time 0 (overdue once `now` is positive). -/
def wcardA : Card :=
  { card_id := "a"
    ease_factor := DEFAULT_EASE
    interval_minutes := 1
    repetitions := 1
    next_review := 0
    last_quality := none
    review_count := 1
    correct_count := 1 }

/-- A never-reviewed card due at time 15 (not overdue at `now = 10`). -/
def wcardB : Card :=
  { card_id := "b"
    ease_factor := DEFAULT_EASE
    interval_minutes := 1
    repetitions := 0
    next_review := 15
    last_quality := none
    review_count := 0
    correct_count := 0 }

/-- Spec for `wcardA`, as `_make_spec` builds it. -/
def wspecA : CardSpec := { id := "a", ctype := "letter-to-value", prompt := "?", answer := "?" }

/-- Spec for `wcardB`, as `_make_spec` builds it. -/
def wspecB : CardSpec := { id := "b", ctype := "letter-to-value", prompt := "?", answer := "?" }

/-- A card meeting the mastery criteria (4 reviews, 4 correct), as built
by `_make_mastered_cards` of tests/test_progression.py. -/
def wmastered : Card := { create_card "m" with review_count := 4, correct_count := 4 }

/-! ## Theorems -/

lemma adjust_ease_one (e : ℚ) : adjust_ease e 1 = max MIN_EASE (e - 27/50) := by
  unfold adjust_ease
  norm_num
  congr 1
  ring

lemma iter_wrong_closed (n : ℕ) (e : ℚ) (he : MIN_EASE ≤ e) :
    iter_wrong n e = max MIN_EASE (e - 27/50 * n) := by
  induction n generalizing e with
  | zero => simp [iter_wrong, max_eq_right he]
  | succ n ih =>
    rw [iter_wrong, adjust_ease_one, ih _ (le_max_left _ _)]
    have hc : ((n + 1 : ℕ) : ℚ) = (n : ℚ) + 1 := by push_cast; ring
    rcases le_total (e - 27/50) MIN_EASE with h | h
    · have h0 : (0 : ℚ) ≤ 27/50 * (n : ℚ) := by positivity
      rw [max_eq_left h, hc, max_eq_left (by linarith), max_eq_left (by linarith)]
    · rw [max_eq_right h, hc]
      congr 1
      ring

/-- C7: for every ease factor ≥ 1.3 and quality in {1,3,4,5} the update
is `max(1.3, e + 0.1 − (5−q)(0.08 + (5−q)·0.02))` in exact rationals;
`adjust_ease 2.5 5 = 2.6` and `adjust_ease 2.5 1 = 1.96`; iterated
quality-1 reviews never drop the ease below 1.3 and eventually pin it at
exactly 1.3. -/
theorem ease_update_formula_and_clamp :
    (∀ (e : ℚ) (q : ℕ), MIN_EASE ≤ e → q = 1 ∨ q = 3 ∨ q = 4 ∨ q = 5 →
      adjust_ease e q =
        max (13/10) (e + (1/10 - ((5 - q : ℕ) : ℚ) * (2/25 + ((5 - q : ℕ) : ℚ) * (1/50)))))
    ∧ adjust_ease (5/2) 5 = 13/5
    ∧ adjust_ease (5/2) 1 = 49/25
    ∧ (∀ e : ℚ, MIN_EASE ≤ e → ∀ n : ℕ, MIN_EASE ≤ iter_wrong n e)
    ∧ (∀ e : ℚ, MIN_EASE ≤ e → ∃ N : ℕ, ∀ m : ℕ, N ≤ m → iter_wrong m e = MIN_EASE) := by
  refine ⟨fun e q _ _ => rfl, ?_, ?_, fun e he n => ?_, fun e he => ?_⟩
  · simp only [adjust_ease, MIN_EASE, max_def]
    norm_num
  · simp only [adjust_ease, MIN_EASE, max_def]
    norm_num
  · rw [iter_wrong_closed n e he]
    exact le_max_left _ _
  · obtain ⟨N, hN⟩ := exists_nat_ge ((e - MIN_EASE) / (27/50))
    refine ⟨N, fun m hm => ?_⟩
    have hm2 : ((e - MIN_EASE) / (27/50) : ℚ) ≤ (m : ℚ) :=
      le_trans hN (by exact_mod_cast hm)
    have h3 : e - MIN_EASE ≤ (m : ℚ) * (27/50) :=
      (div_le_iff₀ (by norm_num)).mp hm2
    rw [iter_wrong_closed m e he]
    exact max_eq_left (by linarith)

theorem ease_update_formula_and_clamp_witness :
    MIN_EASE ≤ (5/2 : ℚ) ∧ MIN_EASE ≤ iter_wrong 3 (5/2) :=
  ⟨by norm_num [MIN_EASE],
   ease_update_formula_and_clamp.2.2.2.1 (5/2) (by norm_num [MIN_EASE]) 3⟩

/-- C10: a quality-4 review leaves the ease factor unchanged, because its
delta is exactly zero in rational arithmetic. -/
theorem adjust_ease_quality4_identity (e : ℚ) (he : MIN_EASE ≤ e) :
    adjust_ease e 4 = e := by
  simp only [adjust_ease]
  norm_num
  exact he

theorem adjust_ease_quality4_identity_witness :
    MIN_EASE ≤ DEFAULT_EASE ∧ adjust_ease DEFAULT_EASE 4 = DEFAULT_EASE :=
  ⟨by norm_num [MIN_EASE, DEFAULT_EASE],
   adjust_ease_quality4_identity DEFAULT_EASE (by norm_num [MIN_EASE, DEFAULT_EASE])⟩

/-- C8: a review with quality < 3 resets repetitions to 0 and the
interval to its minimum unit value 1, in both embeddings, regardless of
prior state. -/
theorem failure_resets_reps_and_interval :
    ∀ (card : Card) (q : ℕ), q < 3 →
      (sm2_review_card card q).repetitions = 0 ∧
      (sm2_review_card card q).interval_minutes = 1 ∧
      ∀ (reps : ℕ) (interval : ℤ) (ef : ℚ),
        (sm2_review reps interval ef q).1 = 0 ∧
        (sm2_review reps interval ef q).2.1 = 1 := by
  intro card q hq
  refine ⟨?_, ?_, fun reps interval ef => ⟨?_, ?_⟩⟩ <;>
    simp [sm2_review_card, sm2_review, hq]

theorem failure_resets_reps_and_interval_witness :
    (1 : ℕ) < 3 ∧ (sm2_review_card (create_card "a") 1).repetitions = 0 :=
  ⟨by decide, (failure_resets_reps_and_interval (create_card "a") 1 (by decide)).1⟩

/-- C4 counterexample: the two review embeddings disagree at
repetitions 0, interval 1, ease 2.5, quality 4 — the first-step
intervals are 1 and 2 — so they do not return equal results. -/
theorem sm2_ladders_counterexample :
    ¬ ((sm2_review 0 1 DEFAULT_EASE 4).1 =
         (sm2_review_card (mkCard 0 1 DEFAULT_EASE) 4).repetitions ∧
       (sm2_review 0 1 DEFAULT_EASE 4).2.1 =
         (sm2_review_card (mkCard 0 1 DEFAULT_EASE) 4).interval_minutes ∧
       (sm2_review 0 1 DEFAULT_EASE 4).2.2 =
         (sm2_review_card (mkCard 0 1 DEFAULT_EASE) 4).ease_factor) := by
  intro h
  exact absurd h.2.1 (by decide)

/-- C4 amended: the two embeddings agree on the new repetitions and the
new ease factor everywhere, and on the new interval for failures and for
the multiplicative branch (repetitions ≥ 2); they differ on the first
two success steps, where the ladders are 1/6 versus 2/10. -/
theorem sm2_ladders_agreement :
    ∀ (reps : ℕ) (interval : ℤ) (ef : ℚ) (q : ℕ),
      q = 1 ∨ q = 3 ∨ q = 4 ∨ q = 5 →
      (sm2_review reps interval ef q).1 =
        (sm2_review_card (mkCard reps interval ef) q).repetitions ∧
      (sm2_review reps interval ef q).2.2 =
        (sm2_review_card (mkCard reps interval ef) q).ease_factor ∧
      (q < 3 → (sm2_review reps interval ef q).2.1 =
        (sm2_review_card (mkCard reps interval ef) q).interval_minutes) ∧
      (2 ≤ reps → (sm2_review reps interval ef q).2.1 =
        (sm2_review_card (mkCard reps interval ef) q).interval_minutes) ∧
      (3 ≤ q → reps = 0 → (sm2_review reps interval ef q).2.1 = 1 ∧
        (sm2_review_card (mkCard reps interval ef) q).interval_minutes = 2) ∧
      (3 ≤ q → reps = 1 → (sm2_review reps interval ef q).2.1 = 6 ∧
        (sm2_review_card (mkCard reps interval ef) q).interval_minutes = 10) := by
  intro reps interval ef q _
  by_cases h3 : q < 3
  · simp [sm2_review, sm2_review_card, mkCard, h3]
  · rcases reps with _ | _ | reps <;>
      simp [sm2_review, sm2_review_card, mkCard, h3]

theorem sm2_ladders_agreement_witness :
    (2 : ℕ) ≤ 2 + 3 ∧
    (sm2_review 5 20 DEFAULT_EASE 4).2.1 =
      (sm2_review_card (mkCard 5 20 DEFAULT_EASE) 4).interval_minutes :=
  ⟨by decide,
   (sm2_ladders_agreement 5 20 DEFAULT_EASE 4
      (Or.inr (Or.inr (Or.inl rfl)))).2.2.2.1 (by decide)⟩

lemma total_reviews_pos (cards : List Card) (hne : cards ≠ [])
    (hall : ∀ c ∈ cards, MASTERY_MIN_REPS ≤ c.review_count) :
    0 < (cards.map (·.review_count)).sum := by
  match cards, hne with
  | c :: rest, _ =>
    have h1 := hall c (by simp)
    simp only [List.map_cons, List.sum_cons, MASTERY_MIN_REPS] at *
    omega

/-- C1: mastery holds iff the card collection is non-empty, every card
has review_count ≥ 3, and the aggregate correct/review ratio is ≥ 0.8;
the two `_check_mastery` embeddings agree; a single card with 4 correct
of 5 reviews passes, one with 3 of 4 fails, and the empty collection is
never mastered. -/
theorem mastery_characterisation :
    (∀ cards : List Card, check_mastery cards = true ↔
      (cards ≠ [] ∧ (∀ c ∈ cards, MASTERY_MIN_REPS ≤ c.review_count) ∧
        MASTERY_ACCURACY ≤
          ((((cards.map (·.correct_count)).sum : ℕ) : ℚ) /
            (((cards.map (·.review_count)).sum : ℕ) : ℚ))))
    ∧ (∀ cards : List Card, check_mastery_sel cards = check_mastery cards)
    ∧ check_mastery [{ create_card "a" with review_count := 5, correct_count := 4 }] = true
    ∧ check_mastery [{ create_card "a" with review_count := 4, correct_count := 3 }] = false
    ∧ check_mastery [] = false := by
  have hmain : ∀ cards : List Card, check_mastery cards = true ↔
      (cards ≠ [] ∧ (∀ c ∈ cards, MASTERY_MIN_REPS ≤ c.review_count) ∧
        MASTERY_ACCURACY ≤
          ((((cards.map (·.correct_count)).sum : ℕ) : ℚ) /
            (((cards.map (·.review_count)).sum : ℕ) : ℚ))) := by
    intro cards
    unfold check_mastery
    by_cases hemp : cards.isEmpty
    · simp only [List.isEmpty_iff] at hemp
      simp [hemp]
    · have hne : cards ≠ [] := by
        simpa [List.isEmpty_iff] using hemp
      by_cases hany : cards.any (fun c => c.review_count < MASTERY_MIN_REPS)
      · simp only [hemp, hany, Bool.false_eq_true, if_true, if_false,
          Bool.if_false_left]
        simp only [List.any_eq_true, decide_eq_true_iff] at hany
        obtain ⟨c, hc, hlt⟩ := hany
        constructor
        · intro hfalse
          simp at hfalse
        · rintro ⟨_, hall, _⟩
          exact absurd (hall c hc) (by omega)
      · have hall : ∀ c ∈ cards, MASTERY_MIN_REPS ≤ c.review_count := by
          intro c hc
          by_contra hcon

          exact hany (List.any_eq_true.mpr ⟨c, hc, by simpa using hcon⟩)
        have htot := total_reviews_pos cards hne hall
        simp only [hemp, hany, if_false, Bool.false_eq_true]
        unfold level_accuracy
        simp only [htot, if_pos, decide_eq_true_iff]
        exact ⟨fun h => ⟨hne, hall, h⟩, fun h => h.2.2⟩
  refine ⟨hmain, fun cards => ?_, ?_, ?_, by simp [check_mastery]⟩
  · unfold check_mastery check_mastery_sel level_accuracy
    by_cases hemp : cards.isEmpty
    · simp [hemp]
    · have hne : cards ≠ [] := by simpa [List.isEmpty_iff] using hemp
      by_cases hany : cards.any (fun c => c.review_count < MASTERY_MIN_REPS)
      · simp [hemp, hany]
      · have hall : ∀ c ∈ cards, MASTERY_MIN_REPS ≤ c.review_count := by
          intro c hc
          by_contra hcon
          exact hany (List.any_eq_true.mpr ⟨c, hc, by simpa using hcon⟩)
        have htot := total_reviews_pos cards hne hall
        simp [hemp, hany, htot]
  · rw [hmain]
    refine ⟨by simp, by simp [MASTERY_MIN_REPS], ?_⟩
    norm_num [MASTERY_ACCURACY]
  · rw [Bool.eq_false_iff]
    intro hcon
    rw [hmain] at hcon
    have := hcon.2.2
    norm_num [MASTERY_ACCURACY] at this

/-- C9: over the 22-letter alphabet, atbash and albam are involutions
and avgad reverse inverts avgad forward (the last letter wrapping to the
first), exactly as the maps are built in tests/test_gematria_systems.py. -/
theorem cipher_involutions :
    (alphabet.all fun c => decide ((atbash_char c).bind atbash_char = some c)) = true
    ∧ (alphabet.all fun c => decide ((albam_char c).bind albam_char = some c)) = true
    ∧ (alphabet.all fun c => decide ((avgad_forward c).bind avgad_reverse = some c)) = true :=
  ⟨by decide, by decide, by decide⟩

lemma emit_loop_eq (v : ℕ) (hv : 1 ≤ v) (c : Char) :
    ∀ n, emit_loop v c n = (List.replicate (n / v) c, n % v) := by
  intro n
  induction n using Nat.strong_induction_on with
  | _ n ih =>
    rw [emit_loop]
    by_cases hle : v ≤ n
    · rw [dif_pos ⟨hv, hle⟩, ih (n - v) (by omega)]
      have hdiv : n / v = (n - v) / v + 1 := by
        rw [Nat.div_eq_sub_div (by omega) hle]
      have hmod : n % v = (n - v) % v := Nat.mod_eq_sub_mod hle
      rw [hdiv, hmod, List.replicate_succ]
    · rw [dif_neg (fun hcon => hle hcon.2)]
      rw [Nat.div_eq_of_lt (by omega), Nat.mod_eq_of_lt (by omega),
        List.replicate_zero]

lemma greedy_encode_eq (table : List (ℕ × Char)) (htable : ∀ p ∈ table, 1 ≤ p.1) :
    ∀ n, greedy_encode table n = greedy_spec table n := by
  induction table with
  | nil => intro n; rfl
  | cons p rest ih =>
    intro n
    obtain ⟨v, c⟩ := p
    have hv : 1 ≤ v := htable (v, c) (by simp)
    simp only [greedy_encode, greedy_spec, emit_loop_eq v hv c]
    rw [ih (fun q hq => htable q (by simp [hq])) (n % v)]

/-- C6: the encoder equals the five-step pipeline of the claim — one
thousands reduction, empty string at zero, greedy decomposition over the
descending value table (one letter per full multiple), the 15/16
replacements in order, then geresh/gershayim punctuation — and in
particular `encode 5784` with thousands omitted equals `encode 784`. -/
theorem encoder_pipeline :
    (∀ (n : ℕ) (om : Bool), encode n om = encode_spec n om)
    ∧ encode 5784 true = encode 784 true := by
  have hmain : ∀ (n : ℕ) (om : Bool), encode n om = encode_spec n om := by
    intro n om
    simp only [encode, encode_spec, greedy_encode_eq HE_VALUES (by decide)]
  refine ⟨hmain, ?_⟩
  rw [hmain, hmain]
  rfl

/-- C5 counterexample: the valuation embedding of tests/test_levels.py
has no typed failure at all — on an unknown letter (or unknown system) it
silently returns 0, the exact behaviour the claim rules out. -/
theorem compute_value_counterexample :
    compute_value letters_table "x" "hechrachi" = 0 ∧
    compute_value letters_table "א" "mispar" = 0 :=
  ⟨rfl, rfl⟩

/-- C5 amended: for every unknown letter (no row matches, base or final)
and every system, and for every letter under an unknown system name, the
valuation returns the sentinel 0 rather than raising a typed error. -/
theorem compute_value_unknown_returns_zero :
    (∀ (ch system : String), find_letter_row letters_table ch = none →
        compute_value letters_table ch system = 0)
    ∧ (∀ (ch system : String), system ≠ "hechrachi" → system ≠ "gadol" →
        system ≠ "katan" → system ≠ "siduri" →
        compute_value letters_table ch system = 0) := by
  constructor
  · intro ch system h
    unfold compute_value
    rw [h]
  · intro ch system h1 h2 h3 h4
    unfold compute_value
    cases find_letter_row letters_table ch with
    | none => rfl
    | some p => simp [h1, h2, h3, h4]

theorem compute_value_unknown_returns_zero_witness :
    find_letter_row letters_table "x" = none ∧
    compute_value letters_table "x" "siduri" = 0 :=
  ⟨rfl, compute_value_unknown_returns_zero.1 "x" "siduri" rfl⟩

lemma fmoAux_some_spec (now : ℚ) :
    ∀ (cards : List Card) (b : Card), 0 < overdue_minutes now b →
      ∃ r, fmoAux now cards (some b) (overdue_minutes now b) = some r ∧
        0 < overdue_minutes now r ∧
        overdue_minutes now b ≤ overdue_minutes now r ∧
        (∀ d ∈ cards, overdue_minutes now d ≤ overdue_minutes now r) ∧
        (r = b ∨ ∃ l1 l2, cards = l1 ++ r :: l2 ∧
          overdue_minutes now b < overdue_minutes now r ∧
          ∀ d ∈ l1, overdue_minutes now d < overdue_minutes now r) := by
  intro cards
  induction cards with
  | nil =>
    intro b hb
    exact ⟨b, rfl, hb, le_refl _, by simp, Or.inl rfl⟩
  | cons c rest ih =>
    intro b hb
    simp only [fmoAux, Option.isNone_some, Bool.false_eq_true, false_or]
    by_cases hcond : 0 < overdue_minutes now c ∧
        overdue_minutes now b < overdue_minutes now c
    · rw [if_pos hcond]
      obtain ⟨r, heq, hrpos, hcr, hall, hdisj⟩ := ih c hcond.1
      refine ⟨r, heq, hrpos, le_trans (le_of_lt hcond.2) hcr, ?_, ?_⟩
      · intro d hd
        rcases List.mem_cons.mp hd with h | h
        · rw [h]; exact hcr
        · exact hall d h
      · rcases hdisj with h | ⟨l1, l2, hdec, hlt, hl1⟩
        · rw [h]
          exact Or.inr ⟨[], rest, rfl, hcond.2, by simp⟩
        · refine Or.inr ⟨c :: l1, l2, by simp [hdec], lt_trans hcond.2 hlt, ?_⟩
          intro d hd
          rcases List.mem_cons.mp hd with h | h
          · rw [h]; exact hlt
          · exact hl1 d h
    · rw [if_neg hcond]
      have hcb : overdue_minutes now c ≤ overdue_minutes now b := by
        by_contra hcon
        push_neg at hcon
        exact hcond ⟨lt_trans hb hcon, hcon⟩
      obtain ⟨r, heq, hrpos, hbr, hall, hdisj⟩ := ih b hb
      refine ⟨r, heq, hrpos, hbr, ?_, ?_⟩
      · intro d hd
        rcases List.mem_cons.mp hd with h | h
        · rw [h]; exact le_trans hcb hbr
        · exact hall d h
      · rcases hdisj with h | ⟨l1, l2, hdec, hlt, hl1⟩
        · exact Or.inl h
        · refine Or.inr ⟨c :: l1, l2, by simp [hdec], hlt, ?_⟩
          intro d hd
          rcases List.mem_cons.mp hd with h | h
          · rw [h]; exact lt_of_le_of_lt hcb hlt
          · exact hl1 d h

lemma find_most_overdue_spec (now : ℚ) :
    ∀ cards : List Card, (∃ c ∈ cards, 0 < overdue_minutes now c) →
      ∃ r l1 l2, cards = l1 ++ r :: l2 ∧ 0 < overdue_minutes now r ∧
        (∀ d ∈ l1, overdue_minutes now d < overdue_minutes now r) ∧
        (∀ d ∈ cards, overdue_minutes now d ≤ overdue_minutes now r) ∧
        find_most_overdue now cards = some r := by
  intro cards
  induction cards with
  | nil =>
    rintro ⟨c, hc, _⟩
    exact absurd hc (List.not_mem_nil c)
  | cons c rest ih =>
    intro hex
    unfold find_most_overdue
    simp only [fmoAux, Option.isNone_none, true_or, and_true]
    by_cases hc : 0 < overdue_minutes now c
    · rw [if_pos hc]
      obtain ⟨r, heq, hrpos, hcr, hall, hdisj⟩ := fmoAux_some_spec now rest c hc
      rcases hdisj with h | ⟨l1, l2, hdec, hlt, hl1⟩
      · rw [h] at heq hrpos hcr hall
        refine ⟨c, [], rest, rfl, hrpos, by simp, ?_, heq⟩
        intro d hd
        rcases List.mem_cons.mp hd with hh | hh
        · rw [hh]
        · exact hall d hh
      · refine ⟨r, c :: l1, l2, by simp [hdec], hrpos, ?_, ?_, heq⟩
        · intro d hd
          rcases List.mem_cons.mp hd with hh | hh
          · rw [hh]; exact hlt
          · exact hl1 d hh
        · intro d hd
          rcases List.mem_cons.mp hd with hh | hh
          · rw [hh]; exact le_of_lt hlt
          · exact hall d hh
    · rw [if_neg hc]
      have hex2 : ∃ d ∈ rest, 0 < overdue_minutes now d := by
        obtain ⟨d, hd, hdpos⟩ := hex
        rcases List.mem_cons.mp hd with h | h
        · rw [h] at hdpos; exact absurd hdpos hc
        · exact ⟨d, h, hdpos⟩
      obtain ⟨r, l1, l2, hdec, hrpos, hl1, hall, heq⟩ := ih hex2
      have hcle : overdue_minutes now c ≤ 0 := le_of_not_lt hc
      refine ⟨r, c :: l1, l2, by simp [hdec], hrpos, ?_, ?_, heq⟩
      · intro d hd
        rcases List.mem_cons.mp hd with hh | hh
        · rw [hh]; exact lt_of_le_of_lt hcle hrpos
        · exact hl1 d hh
      · intro d hd
        rcases List.mem_cons.mp hd with hh | hh
        · rw [hh]; exact le_trans hcle (le_of_lt hrpos)
        · exact hall d hh

/-- C2: whenever some card is overdue (and some card is new), the
selection returns type "card" with the card of maximal overdue, ties
broken by first position in the input list; and a new card is returned
only when no card at all is overdue. -/
theorem selection_overdue_priority :
    (∀ (now : ℚ) (cards : List Card) (specs : List CardSpec),
      (∃ c ∈ cards, 0 < overdue_minutes now c) →
      (∃ c ∈ cards, c.review_count = 0) →
      ∃ r l1 l2, cards = l1 ++ r :: l2 ∧ 0 < overdue_minutes now r ∧
        (∀ d ∈ l1, overdue_minutes now d < overdue_minutes now r) ∧
        (∀ d ∈ cards, overdue_minutes now d ≤ overdue_minutes now r) ∧
        select_next now cards specs =
          { rtype := "card", card := some r,
            spec := dictGet (specs.map fun s => (s.id, s)) r.card_id })
    ∧ (∀ (now : ℚ) (cards : List Card) (specs : List CardSpec)
        (c : Card) (s : CardSpec),
        find_most_overdue now cards = none →
        find_new_card cards specs = some (c, s) →
        select_next now cards specs =
          { rtype := "card", card := some c, spec := some s }) := by
  constructor
  · intro now cards specs hover _
    obtain ⟨r, l1, l2, hdec, hrpos, hl1, hall, heq⟩ :=
      find_most_overdue_spec now cards hover
    refine ⟨r, l1, l2, hdec, hrpos, hl1, hall, ?_⟩
    unfold select_next
    rw [heq]
  · intro now cards specs c s hnone hnew
    unfold select_next
    rw [hnone, hnew]

theorem selection_overdue_priority_witness :
    select_next 10 [wcardA, wcardB] [wspecA, wspecB] =
      { rtype := "card", card := some wcardA, spec := some wspecA } := by
  obtain ⟨r, l1, l2, hdec, hrpos, hl1, hall, hsel⟩ :=
    selection_overdue_priority.1 10 [wcardA, wcardB] [wspecA, wspecB]
      ⟨wcardA, by simp, by norm_num [overdue_minutes, wcardA]⟩
      ⟨wcardB, by simp [wcardB], rfl⟩
  rcases l1 with _ | ⟨x, l1t⟩
  · simp only [List.nil_append] at hdec
    have hr : r = wcardA := by
      have := List.head_eq_of_cons_eq hdec.symm
      exact this
    rw [hsel, hr]
    rfl
  · rcases l1t with _ | ⟨y, l1tt⟩
    · simp only [List.cons_append, List.nil_append] at hdec
      have hx : x = wcardA := (List.head_eq_of_cons_eq hdec.symm)
      have hr : r = wcardB :=
        List.head_eq_of_cons_eq (List.tail_eq_of_cons_eq hdec.symm)
      rw [hr] at hrpos
      norm_num [overdue_minutes, wcardB] at hrpos
    · have hlen := congrArg List.length hdec
      simp [List.length_append] at hlen

lemma reachable_completed_tier (sys : String) :
    ∀ s : ProgState, ReachableFrom (create_state sys) s →
      s.completed = true → s.tierCount ≤ s.currentTier := by
  intro s h
  induction h with
  | refl =>
    intro hcomp
    simp [create_state] at hcomp
  | step cards hprev ih =>
    intro hcomp
    rename_i s0
    by_cases hm : check_mastery_sel cards = true
    · by_cases ht : s0.tierCount ≤ s0.currentTier
      · simp only [try_advance, hm, not_true, if_neg, if_pos ht] at hcomp ⊢
        simpa using ht
      · simp only [try_advance, hm, not_true, if_neg, if_pos, ht, if_false] at hcomp ⊢
        have := ih (by simpa using hcomp)
        omega
    · simp only [try_advance, hm, if_pos] at hcomp ⊢
      simp only [Bool.not_eq_true] at hm
      simp [hm] at hcomp ⊢
      exact ih hcomp

/-- C3: from a non-completed state, mastery advances the tier by one
when below the tier count and sets completed (leaving the tier in place)
when at the tier count; and every reachable completed state is left
entirely unchanged by any further mastery evaluation. -/
theorem progression_machine :
    (∀ (s : ProgState) (cards : List Card), s.completed = false →
      check_mastery_sel cards = true →
      (s.currentTier < s.tierCount →
        try_advance s cards =
          ({ s with currentTier := s.currentTier + 1 }, true, false)) ∧
      (s.currentTier = s.tierCount →
        try_advance s cards = ({ s with completed := true }, false, true)))
    ∧ (∀ (sys : String) (s : ProgState), ReachableFrom (create_state sys) s →
        s.completed = true → ∀ cards : List Card,
          (try_advance s cards).1 = s) := by
  constructor
  · intro s cards _ hm
    constructor
    · intro hlt
      unfold try_advance
      rw [if_neg (by simp [hm]), if_neg (by omega)]
    · intro heqt
      unfold try_advance
      rw [if_neg (by simp [hm]), if_pos (le_of_eq heqt.symm)]
  · intro sys s hreach hcomp cards
    have hinv := reachable_completed_tier sys s hreach hcomp
    unfold try_advance
    by_cases hm : check_mastery_sel cards = true
    · rw [if_neg (by simp [hm]), if_pos hinv]
      cases s
      simp only at hcomp
      simp [hcomp]
    · rw [if_pos (by simp [hm])]

lemma wmastered_mastery : check_mastery_sel [wmastered] = true := by
  have h1 : ¬ ([wmastered].any fun c => c.review_count < MASTERY_MIN_REPS) := by
    simp [wmastered, create_card, MASTERY_MIN_REPS]
  unfold check_mastery_sel
  rw [if_neg (by simp), if_neg h1]
  simp only [List.map_cons, List.map_nil, List.sum_cons, List.sum_nil]
  norm_num [wmastered, create_card, MASTERY_ACCURACY]

lemma watbash_step1 :
    (try_advance (create_state "atbash") [wmastered]).1 =
      ⟨"atbash", 2, 3, false, []⟩ := by
  unfold try_advance
  rw [if_neg (by simp [wmastered_mastery]), if_neg (by decide)]
  rfl

lemma watbash_step2 :
    (try_advance (⟨"atbash", 2, 3, false, []⟩ : ProgState) [wmastered]).1 =
      ⟨"atbash", 3, 3, false, []⟩ := by
  unfold try_advance
  rw [if_neg (by simp [wmastered_mastery]), if_neg (by norm_num)]

lemma watbash_step3 :
    (try_advance (⟨"atbash", 3, 3, false, []⟩ : ProgState) [wmastered]).1 =
      ⟨"atbash", 3, 3, true, []⟩ := by
  unfold try_advance
  rw [if_neg (by simp [wmastered_mastery]), if_pos (by norm_num)]

lemma watbash_completed_reachable :
    ReachableFrom (create_state "atbash") (⟨"atbash", 3, 3, true, []⟩ : ProgState) := by
  have r0 : ReachableFrom (create_state "atbash") (create_state "atbash") :=
    ReachableFrom.refl
  have r1 := ReachableFrom.step [wmastered] r0
  rw [watbash_step1] at r1
  have r2 := ReachableFrom.step [wmastered] r1
  rw [watbash_step2] at r2
  have r3 := ReachableFrom.step [wmastered] r2
  rw [watbash_step3] at r3
  exact r3

theorem progression_machine_witness :
    (try_advance (⟨"atbash", 3, 3, true, []⟩ : ProgState) [wmastered]).1 =
      (⟨"atbash", 3, 3, true, []⟩ : ProgState) :=
  progression_machine.2 "atbash" ⟨"atbash", 3, 3, true, []⟩
    watbash_completed_reachable rfl [wmastered]

end Gematria
